import Mathlib

/-!
Shallow embedding of the `syscall-table` crate (src/src/lib.rs).

The crate dispatches "syscalls": a caller passes a numeric id and a flat
`&[usize]` word slice; the table decodes the words into a typed argument
tuple (`FromArgs`), calls the registered handler, and encodes the result
back into one `isize` (`ToIsize`).

Modelling conventions:
- the target is a 64-bit machine: `usize`/`isize` are 64 bits wide;
- a machine word (`usize`) is a `Nat`; real words are `< 2^64` and every
  decode applies the Rust `as`-cast truncation explicitly;
- `isize` values are `Int`s in `[-2^63, 2^63)`;
- a Rust `panic!`/`unwrap` failure is modelled as `Option.none`;
- `BTreeMap<usize, Service>` is modelled as an association list with
  distinct keys (`Table.Wf`); `insert`, `get` and `remove` have the same
  observable behaviour as the map operations used by the crate.
-/

namespace SyscallTable

/-- The ten scalar numeric types the crate gives `FromArgs`/`ToIsize`
impls to via `mark_basic_type!`/`mark_to_isize!` (lib.rs lines 138-147,
264-273). -/
inductive ScalarTy where
  | usize | u64 | u32 | u16 | u8 | isize | i64 | i32 | i16 | i8
deriving DecidableEq, Repr

/-- Bit width of a scalar type on the 64-bit target. -/
def ScalarTy.width : ScalarTy → Nat
  | .usize => 64
  | .u64 => 64
  | .u32 => 32
  | .u16 => 16
  | .u8 => 8
  | .isize => 64
  | .i64 => 64
  | .i32 => 32
  | .i16 => 16
  | .i8 => 8

/-- Whether the scalar type is signed. -/
def ScalarTy.signed : ScalarTy → Bool
  | .usize => false
  | .u64 => false
  | .u32 => false
  | .u16 => false
  | .u8 => false
  | .isize => true
  | .i64 => true
  | .i32 => true
  | .i16 => true
  | .i8 => true

/-- The Rust source-level name of the type, as produced by
`stringify!($ident)` inside `mark_basic_type!`. -/
def ScalarTy.name : ScalarTy → String
  | .usize => "usize"
  | .u64 => "u64"
  | .u32 => "u32"
  | .u16 => "u16"
  | .u8 => "u8"
  | .isize => "isize"
  | .i64 => "i64"
  | .i32 => "i32"
  | .i16 => "i16"
  | .i8 => "i8"

/-- Two's-complement reading of the low `w` bits of a natural number:
the value of `x as` a signed `w`-bit integer. -/
def toSigned (w : Nat) (x : Nat) : Int :=
  if x % 2 ^ w < 2 ^ (w - 1) then ((x % 2 ^ w : Nat) : Int)
  else ((x % 2 ^ w : Nat) : Int) - 2 ^ w

/-- Semantics of the Rust cast `word as T` for a `usize` word and a scalar
target type `T` (the `args[0] as $ident` step of `mark_basic_type!`):
truncate to `T`'s width, then reinterpret as signed when `T` is signed. -/
def castWord (t : ScalarTy) (x : Nat) : Int :=
  if t.signed then toSigned t.width x
  else ((x % 2 ^ t.width : Nat) : Int)

/-- Semantics of the Rust cast `v as isize` applied to a value `v` of
scalar type `t` (the body of `mark_to_isize!`): identity on signed values
(sign extension) and on unsigned values narrower than 64 bits (zero
extension); bit reinterpretation for 64-bit unsigned values. -/
def toIsizeScalar (t : ScalarTy) (v : Int) : Int :=
  if t.signed then v
  else if t.width < 64 then v
  else toSigned 64 v.toNat

/-- Semantics of the Rust cast `r as usize` turning an `isize` result back
into a machine word (how a handler's output re-enters a word slice). -/
def isizeToWord (r : Int) : Nat := (r % 2 ^ 64).toNat

/-- Smallest value representable in scalar type `t`. -/
def ScalarTy.lo (t : ScalarTy) : Int :=
  if t.signed then -(2 ^ (t.width - 1)) else 0

/-- One past the largest value representable in scalar type `t`. -/
def ScalarTy.hi (t : ScalarTy) : Int :=
  if t.signed then 2 ^ (t.width - 1) else 2 ^ t.width

/-- The values `v : Int` that are values of the Rust type `t`. -/
def scalarInRange (t : ScalarTy) (v : Int) : Prop :=
  t.lo ≤ v ∧ v < t.hi

instance (t : ScalarTy) (v : Int) : Decidable (scalarInRange t v) :=
  inferInstanceAs (Decidable (_ ∧ _))

/-- The argument-position types that can occupy a slot of a decoded tuple:
a scalar numeric type, or a raw pointer (`*const T` and `*mut T` have
byte-identical `FromArgs` impls, lib.rs lines 225-245, so one constructor
models both).  The arity-0 handler uses the empty shape `[]`, matching the
`FromArgs for ()` impl that consumes nothing. -/
inductive ArgTy where
  | scalar (t : ScalarTy)
  | ptr
deriving DecidableEq, Repr

/-- A decoded argument value: an integer for a scalar position, a raw
address for a pointer position. -/
inductive ArgVal where
  | int (v : Int)
  | addr (a : Nat)
deriving DecidableEq, Repr

instance {ε α : Type _} [DecidableEq ε] [DecidableEq α] :
    DecidableEq (Except ε α) := fun x y =>
  match x, y with
  | .ok a, .ok b =>
    if h : a = b then isTrue (by rw [h])
    else isFalse (fun hh => h (Except.ok.inj hh))
  | .ok _, .error _ => isFalse (fun hh => Except.noConfusion hh)
  | .error _, .ok _ => isFalse (fun hh => Except.noConfusion hh)
  | .error e, .error f =>
    if h : e = f then isTrue (by rw [h])
    else isFalse (fun hh => h (Except.error.inj hh))

/-- FromArgs for `()` (lib.rs lines 219-223): always succeeds, consuming
nothing, whatever the slice. -/
def fromArgsUnit (_args : List Nat) : Except String Unit := .ok ()

/-- FromArgs for a scalar numeric type (`mark_basic_type!`, lib.rs lines
247-263): if `args.len() >= 1`, cast `args[0]` to the type; otherwise the
error string `"{}:args.len() < 1"` formatted with `stringify!($ident)`,
which names the concrete type. -/
def fromArgsScalar (t : ScalarTy) (args : List Nat) : Except String Int :=
  if h : 1 ≤ args.length then .ok (castWord t (args.get ⟨0, h⟩))
  else .error (t.name ++ ":args.len() < 1")

/-- FromArgs for `*const T` / `*mut T` (lib.rs lines 225-245): if
`args.len() >= 1`, reinterpret `args[0]` as the address; otherwise the
error string.  In these two impls `stringify!($ident)` appears outside any
macro definition, so it stringifies the literal tokens `$ident` and the
message is the placeholder text `"$ident:args.len() < 1"`, naming no
type. -/
def fromArgsPtr (args : List Nat) : Except String Nat :=
  if h : 1 ≤ args.length then .ok (args.get ⟨0, h⟩)
  else .error ("$ident" ++ ":args.len() < 1")

/-- Decode one argument position of the given type from a word slice. -/
def ArgTy.fromArgs : ArgTy → List Nat → Except String ArgVal
  | .scalar t, args => (fromArgsScalar t args).map ArgVal.int
  | .ptr, args => (fromArgsPtr args).map ArgVal.addr

/-- The tuple `FromArgs` impls (`from_args_tuple!`, lib.rs lines 275-294):
position `n` of the tuple decodes from the sub-slice `&args[n..]` of the
original slice, short-circuiting on the first failure (the `?` operator).
`n` is the absolute position index, carried through the recursion. -/
def fromArgsList : List ArgTy → Nat → List Nat → Except String (List ArgVal)
  | [], _, _ => .ok []
  | a :: rest, n, args =>
    match a.fromArgs (args.drop n) with
    | .error e => .error e
    | .ok v =>
      match fromArgsList rest (n + 1) args with
      | .error e => .error e
      | .ok vs => .ok (v :: vs)

/-- Decode a whole argument tuple of the given shape from a word slice;
the empty shape is the `FromArgs for ()` case of an arity-0 handler. -/
def fromArgsTuple (shape : List ArgTy) (args : List Nat) :
    Except String (List ArgVal) :=
  fromArgsList shape 0 args

/-- The value the (total) decode of one position yields when the slice is
long enough: the head word, cast per the position's type. -/
def decodeHead (a : ArgTy) (args : List Nat) : ArgVal :=
  match a with
  | .scalar t => .int (castWord t (args.headD 0))
  | .ptr => .addr (args.headD 0)

/-- The (total) value-level decode of a tuple shape: position `k` reads
from `args.drop k`.  `fromArgsTuple` returns exactly this list whenever
the slice is at least as long as the shape. -/
def decodeWords : List ArgTy → List Nat → List ArgVal
  | [], _ => []
  | a :: rest, args => decodeHead a args :: decodeWords rest (args.drop 1)

/-- A handler's return value: `()`, a scalar, or a `Result` whose two
sides are themselves encodable (the `ToIsize` impls, lib.rs lines
118-156). -/
inductive RetVal where
  | unit
  | scalar (t : ScalarTy) (v : Int)
  | ok (v : RetVal)
  | err (v : RetVal)
deriving DecidableEq, Repr

/-- The `ToIsize` encode step: `()` encodes to 0; a scalar encodes via the
Rust `as isize` cast; `Result` encodes whichever branch occurred using
that branch's own rule, adding no discriminant (lib.rs lines 133-156). -/
def RetVal.to_isize : RetVal → Int
  | .unit => 0
  | .scalar t v => toIsizeScalar t v
  | .ok v => v.to_isize
  | .err v => v.to_isize

/-- The type-erased `Service` (lib.rs lines 296-323): a boxed closure from
a word slice to an `isize`.  The closure built by `Service::from_handler`
calls `Args::from(args).unwrap()`, so a decode failure is a panic; the
panic outcome is modelled as `none`. -/
structure Service where
  /-- The erased closure; `none` models the `unwrap` panic on a decode
  failure. -/
  service : List Nat → Option Int

/-- `Service::from_handler` (lib.rs lines 306-318): decode the argument
tuple (`unwrap`ping the result), call the handler through `UniFn::call`
(positional unpacking of the decoded tuple, lib.rs lines 50-90), and
encode the result with `to_isize`.  The typed handler together with its
`UniFn` unpacking is modelled as a function from the decoded value list. -/
def Service.from_handler (shape : List ArgTy) (handler : List ArgVal → RetVal) :
    Service :=
  ⟨fun args =>
    match fromArgsTuple shape args with
    | .error _ => none
    | .ok vs => some (handler vs).to_isize⟩

/-- `Service::handle` (lib.rs lines 320-322): run the erased closure. -/
def Service.handle (s : Service) (args : List Nat) : Option Int :=
  s.service args

/-- Insert into an association list with the overwrite semantics of
`BTreeMap::insert`: replace the entry of an existing key in place, else
append. -/
def mapInsert (id : Nat) (s : Service) :
    List (Nat × Service) → List (Nat × Service)
  | [] => [(id, s)]
  | (k, v) :: rest =>
    if k = id then (id, s) :: rest else (k, v) :: mapInsert id s rest

/-- Lookup of `BTreeMap::get`: the value of the first entry with the key. -/
def mapGet (id : Nat) : List (Nat × Service) → Option Service
  | [] => none
  | (k, v) :: rest => if k = id then some v else mapGet id rest

/-- Removal of `BTreeMap::remove`: drop the first entry with the key and
return its value. -/
def mapRemove (id : Nat) :
    List (Nat × Service) → Option Service × List (Nat × Service)
  | [] => (none, [])
  | (k, v) :: rest =>
    if k = id then (some v, rest)
    else
      let r := mapRemove id rest
      (r.1, (k, v) :: r.2)

/-- The runtime registry `Table` (lib.rs lines 328-361): a map from id to
`Service`, modelled as an association list with distinct keys. -/
structure Table where
  /-- The underlying id-to-service mapping. -/
  map : List (Nat × Service)

/-- `Table::new`: the empty table. -/
def Table.new : Table := ⟨[]⟩

/-- The `BTreeMap` key-uniqueness invariant: no two entries share an id. -/
def Table.Wf (t : Table) : Prop := (t.map.map Prod.fst).Nodup

instance (t : Table) : Decidable t.Wf :=
  inferInstanceAs (Decidable (List.Nodup _))

/-- `Table::register` (lib.rs lines 343-351): wrap the typed handler into
a `Service` and insert it, overwriting any entry already under `id`. -/
def Table.register (t : Table) (id : Nat) (shape : List ArgTy)
    (handler : List ArgVal → RetVal) : Table :=
  ⟨mapInsert id (Service.from_handler shape handler) t.map⟩

/-- `Table::remove` (lib.rs lines 353-355): delete the entry under `id`,
returning it when present, together with the updated table. -/
def Table.remove (t : Table) (id : Nat) : Option Service × Table :=
  let r := mapRemove id t.map
  (r.1, ⟨r.2⟩)

/-- `Table::do_call` (lib.rs lines 358-360): look up `id` and run the
service on the words; `none` when the id is absent.  The inner `Option`
is the service's own outcome (`none` = decode panic). -/
def Table.do_call (t : Table) (id : Nat) (args : List Nat) :
    Option (Option Int) :=
  (mapGet id t.map).map (fun s => s.handle args)

/-- An entry of the decentralized (inventory-collected) registry
(lib.rs lines 433-441): a raw uniform-shape function and a `u16` id.
The `id` field is a `u16` value, so it is `< 2^16` by construction. -/
structure ServiceWrapper where
  /-- The raw `fn(&[usize]) -> isize` wrapper function. -/
  service : List Nat → Int
  /-- The `u16` syscall id. -/
  id : Nat

/-- The scan loop `search_run` generated by `invoke_call_id!` (lib.rs
lines 449-457): return the first collected entry whose id equals the
(already truncated) id; the `panic!` on falling off the list is modelled
as `none`. -/
def search_run (id : Nat) (p : List Nat) : List ServiceWrapper → Option Int
  | [] => none
  | w :: rest => if id = w.id then some (w.service p) else search_run id p rest

/-- The macro body of `invoke_call_id!` (lib.rs lines 443-463): truncate
the supplied number with `as u16`, then scan the collected registry. -/
def invoke_call_id (registry : List ServiceWrapper) (number : Nat)
    (p : List Nat) : Option Int :=
  search_run (number % 2 ^ 16) p registry

/-- A concrete two-argument handler, the `add` function of the crate's
own test suite (lib.rs lines 497-499): `fn add(a: usize, b: usize) ->
isize { (a + b) as isize }`. -/
def addHandler : List ArgVal → RetVal
  | [ArgVal.int a, ArgVal.int b] => RetVal.scalar ScalarTy.isize (a + b)
  | _ => RetVal.unit

/-- A concrete handler that ignores its arguments and returns `()`. -/
def unitHandler : List ArgVal → RetVal := fun _ => RetVal.unit

/-- A concrete handler that ignores its arguments and returns `1isize`. -/
def oneHandler : List ArgVal → RetVal := fun _ => RetVal.scalar ScalarTy.isize 1

/-- A concrete handler that ignores its arguments and returns `2isize`. -/
def twoHandler : List ArgVal → RetVal := fun _ => RetVal.scalar ScalarTy.isize 2

/-- A concrete decentralized-registry entry with id 5 returning 1. -/
def wrapperOne : ServiceWrapper := ⟨fun _ => 1, 5⟩

/-- A second concrete decentralized-registry entry, also with id 5,
returning 2. -/
def wrapperTwo : ServiceWrapper := ⟨fun _ => 2, 5⟩

/-! Helper lemmas about the decode pipeline and the association-list map. -/

theorem fromArgs_cons (a : ArgTy) (x : Nat) (rest : List Nat) :
    a.fromArgs (x :: rest) = .ok (decodeHead a (x :: rest)) := by
  have h : 1 ≤ (x :: rest).length := by simp
  cases a with
  | scalar t =>
    simp only [ArgTy.fromArgs, fromArgsScalar, dif_pos h]
    rfl
  | ptr =>
    simp only [ArgTy.fromArgs, fromArgsPtr, dif_pos h]
    rfl

theorem fromArgs_nil (a : ArgTy) : ∃ e, a.fromArgs [] = .error e := by
  cases a <;> exact ⟨_, rfl⟩

theorem fromArgsList_ok (shape : List ArgTy) (args : List Nat) :
    ∀ n, n + shape.length ≤ args.length →
      fromArgsList shape n args = .ok (decodeWords shape (args.drop n)) := by
  induction shape with
  | nil => intro n _; rfl
  | cons a rest ih =>
    intro n h
    obtain ⟨x, xs, hx⟩ : ∃ x xs, args.drop n = x :: xs := by
      cases hcase : args.drop n with
      | nil =>
        rw [List.drop_eq_nil_iff] at hcase
        simp [List.length_cons] at h
        omega
      | cons x xs => exact ⟨x, xs, rfl⟩
    have h1 : a.fromArgs (args.drop n) = .ok (decodeHead a (args.drop n)) := by
      rw [hx]; exact fromArgs_cons a x xs
    have h2 : fromArgsList rest (n + 1) args
        = .ok (decodeWords rest (args.drop (n + 1))) := by
      refine ih (n + 1) ?_
      simp [List.length_cons] at h
      omega
    simp only [fromArgsList, h1, h2, decodeWords, List.drop_drop]

theorem fromArgsList_error (shape : List ArgTy) (args : List Nat) :
    ∀ n, shape ≠ [] → args.length < n + shape.length →
      ∃ e, fromArgsList shape n args = .error e := by
  induction shape with
  | nil => intro n h _; exact absurd rfl h
  | cons a rest ih =>
    intro n _ hlt
    by_cases hn : args.length ≤ n
    · have hd : args.drop n = [] := List.drop_eq_nil_iff.mpr hn
      obtain ⟨e, he⟩ := fromArgs_nil a
      refine ⟨e, ?_⟩
      simp only [fromArgsList, hd, he]
    · push_neg at hn
      obtain ⟨x, xs, hx⟩ : ∃ x xs, args.drop n = x :: xs := by
        cases hcase : args.drop n with
        | nil => rw [List.drop_eq_nil_iff] at hcase; omega
        | cons x xs => exact ⟨x, xs, rfl⟩
      have h1 : a.fromArgs (args.drop n) = .ok (decodeHead a (args.drop n)) := by
        rw [hx]; exact fromArgs_cons a x xs
      have hrest : rest ≠ [] := by
        intro hr
        subst hr
        simp [List.length_cons] at hlt
        omega
      obtain ⟨e, he⟩ := ih (n + 1) hrest (by simp [List.length_cons] at hlt ⊢; omega)
      exact ⟨e, by simp only [fromArgsList, h1, he]⟩

theorem fromArgsTuple_ok (shape : List ArgTy) (args : List Nat)
    (h : shape.length ≤ args.length) :
    fromArgsTuple shape args = .ok (decodeWords shape args) := by
  have := fromArgsList_ok shape args 0 (by omega)
  simpa [fromArgsTuple] using this

theorem fromArgsTuple_error (shape : List ArgTy) (args : List Nat)
    (h : args.length < shape.length) :
    ∃ e, fromArgsTuple shape args = .error e := by
  have hne : shape ≠ [] := by
    intro hs
    subst hs
    simp at h
  exact fromArgsList_error shape args 0 hne (by omega)

theorem decodeWords_length (shape : List ArgTy) :
    ∀ args : List Nat, (decodeWords shape args).length = shape.length := by
  induction shape with
  | nil => intro args; rfl
  | cons a rest ih => intro args; simp [decodeWords, ih]

theorem decodeWords_getD (shape : List ArgTy) :
    ∀ (args : List Nat) (k : Nat), k < shape.length →
      (decodeWords shape args).getD k (ArgVal.addr 0)
        = decodeHead (shape.getD k ArgTy.ptr) (args.drop k) := by
  induction shape with
  | nil => intro args k hk; simp at hk
  | cons a rest ih =>
    intro args k hk
    cases k with
    | zero => simp [decodeWords]
    | succ k =>
      have hk2 : k < rest.length := by simp [List.length_cons] at hk; omega
      have := ih (args.drop 1) k hk2
      simp only [decodeWords, List.getD_cons_succ, this, List.drop_drop]
      rw [Nat.add_comm 1 k]

theorem mapGet_mapInsert_self (id : Nat) (s : Service)
    (m : List (Nat × Service)) : mapGet id (mapInsert id s m) = some s := by
  induction m with
  | nil => simp [mapInsert, mapGet]
  | cons kv rest ih =>
    obtain ⟨k, v⟩ := kv
    by_cases h : k = id <;> simp [mapInsert, mapGet, h, ih]

theorem mem_keys_mapInsert (x id : Nat) (s : Service)
    (m : List (Nat × Service)) :
    x ∈ (mapInsert id s m).map Prod.fst → x = id ∨ x ∈ m.map Prod.fst := by
  induction m with
  | nil => intro h; simp [mapInsert] at h; exact Or.inl h
  | cons kv rest ih =>
    obtain ⟨k, v⟩ := kv
    by_cases h : k = id
    · intro hx
      simp only [mapInsert, if_pos h, List.map_cons, List.mem_cons] at hx
      simp only [List.map_cons, List.mem_cons]
      tauto
    · intro hx
      simp only [mapInsert, if_neg h, List.map_cons, List.mem_cons] at hx
      simp only [List.map_cons, List.mem_cons]
      rcases hx with hx | hx
      · tauto
      · rcases ih hx with hx2 | hx2 <;> tauto

theorem nodup_mapInsert (id : Nat) (s : Service) (m : List (Nat × Service))
    (h : (m.map Prod.fst).Nodup) :
    ((mapInsert id s m).map Prod.fst).Nodup := by
  induction m with
  | nil => simp [mapInsert]
  | cons kv rest ih =>
    obtain ⟨k, v⟩ := kv
    simp only [List.map_cons, List.nodup_cons] at h
    by_cases hk : k = id
    · subst hk
      simpa [mapInsert] using h
    · have ihr := ih h.2
      simp only [mapInsert, hk, if_false, List.map_cons, List.nodup_cons]
      refine ⟨?_, ihr⟩
      intro hmem
      rcases mem_keys_mapInsert k id s rest hmem with h2 | h2
      · exact hk h2
      · exact h.1 h2

theorem mapGet_eq_none_iff (id : Nat) (m : List (Nat × Service)) :
    mapGet id m = none ↔ id ∉ m.map Prod.fst := by
  induction m with
  | nil => simp [mapGet]
  | cons kv rest ih =>
    obtain ⟨k, v⟩ := kv
    by_cases h : k = id
    · subst h
      simp [mapGet]
    · simp [mapGet, h, ih, Ne.symm h]

theorem mapRemove_fst (id : Nat) (m : List (Nat × Service)) :
    (mapRemove id m).1 = mapGet id m := by
  induction m with
  | nil => rfl
  | cons kv rest ih =>
    obtain ⟨k, v⟩ := kv
    by_cases h : k = id <;> simp [mapRemove, mapGet, h, ih]

theorem not_mem_keys_mapRemove (id : Nat) (m : List (Nat × Service))
    (h : (m.map Prod.fst).Nodup) :
    id ∉ ((mapRemove id m).2.map Prod.fst) := by
  induction m with
  | nil => simp [mapRemove]
  | cons kv rest ih =>
    obtain ⟨k, v⟩ := kv
    simp only [List.map_cons, List.nodup_cons] at h
    by_cases hk : k = id
    · subst hk
      simpa [mapRemove] using h.1
    · have ihr := ih h.2
      simp only [mapRemove, hk, if_false, List.map_cons, List.mem_cons]
      intro hmem
      rcases hmem with hmem | hmem
      · exact hk hmem.symm
      · exact ihr hmem

/-! Claim theorems. -/

/-- C1: For every handler of arity n (0 ≤ n ≤ 6) registered in the
runtime registry under `id`, and every word slice of length ≥ n,
`do_call id words` returns the result of decoding the words with
`FromArgs`, invoking the handler on the decoded arguments, and encoding
the result with `ToIsize` — dispatch is exactly decode, then invoke, then
encode. -/
theorem do_call_is_decode_invoke_encode (t : Table) (id : Nat)
    (shape : List ArgTy) (handler : List ArgVal → RetVal) (args : List Nat)
    (harity : shape.length ≤ 6) (hlen : shape.length ≤ args.length) :
    fromArgsTuple shape args = .ok (decodeWords shape args) ∧
    (t.register id shape handler).do_call id args
      = some (some ((handler (decodeWords shape args)).to_isize)) := by
  have hok := fromArgsTuple_ok shape args hlen
  refine ⟨hok, ?_⟩
  simp only [Table.do_call, Table.register]
  rw [mapGet_mapInsert_self]
  simp only [Option.map, Service.handle, Service.from_handler, hok]

theorem do_call_is_decode_invoke_encode_witness :
    (Table.new.register 0
        [ArgTy.scalar ScalarTy.usize, ArgTy.scalar ScalarTy.usize]
        addHandler).do_call 0 [1, 2] = some (some 3) := by
  have h := do_call_is_decode_invoke_encode Table.new 0
    [ArgTy.scalar ScalarTy.usize, ArgTy.scalar ScalarTy.usize] addHandler
    [1, 2] (by decide) (by decide)
  rw [h.2]
  decide

/-- C2: Invoking a registered handler of arity n through `Service.handle`
with a word slice of length < n hits the `unwrap` of the decode result
and aborts (modelled as `none`); conversely, when the slice length is
≥ n the abort branch is unreachable and `handle` returns normally with
the encoded handler result. -/
theorem handle_short_slice_aborts (shape : List ArgTy)
    (handler : List ArgVal → RetVal) (args : List Nat) :
    (args.length < shape.length →
      (Service.from_handler shape handler).handle args = none) ∧
    (shape.length ≤ args.length →
      (Service.from_handler shape handler).handle args
        = some ((handler (decodeWords shape args)).to_isize)) := by
  constructor
  · intro h
    obtain ⟨e, he⟩ := fromArgsTuple_error shape args h
    simp [Service.handle, Service.from_handler, he]
  · intro h
    have hok := fromArgsTuple_ok shape args h
    simp [Service.handle, Service.from_handler, hok]

theorem handle_short_slice_aborts_witness :
    (Service.from_handler [ArgTy.scalar ScalarTy.usize] unitHandler).handle []
      = none ∧
    (Service.from_handler [ArgTy.scalar ScalarTy.usize] unitHandler).handle [7]
      = some 0 := by
  constructor
  · exact (handle_short_slice_aborts [ArgTy.scalar ScalarTy.usize]
      unitHandler []).1 (by decide)
  · have h := (handle_short_slice_aborts [ArgTy.scalar ScalarTy.usize]
      unitHandler [7]).2 (by decide)
    rw [h]
    decide

/-- C3: Registering a second handler under an id already present replaces
the first: after `register id h1` then `register id h2`, `do_call id`
observes exactly h2's behaviour; and registration preserves the
invariant that the registry never holds two callables under one id. -/
theorem register_overwrites (t : Table) (id : Nat) (sh1 sh2 : List ArgTy)
    (f1 f2 : List ArgVal → RetVal) (args : List Nat) :
    ((t.register id sh1 f1).register id sh2 f2).do_call id args
      = some ((Service.from_handler sh2 f2).handle args) ∧
    (t.Wf → ((t.register id sh1 f1).register id sh2 f2).Wf) := by
  constructor
  · simp only [Table.do_call, Table.register]
    rw [mapGet_mapInsert_self]
    rfl
  · intro hwf
    exact nodup_mapInsert _ _ _ (nodup_mapInsert _ _ _ hwf)

theorem register_overwrites_witness :
    ((Table.new.register 0 [] oneHandler).register 0 [] twoHandler).do_call 0 []
      = some ((Service.from_handler ([] : List ArgTy) twoHandler).handle []) ∧
    ((Table.new.register 0 [] oneHandler).register 0 [] twoHandler).Wf := by
  constructor
  · exact (register_overwrites Table.new 0 [] [] oneHandler twoHandler []).1
  · exact (register_overwrites Table.new 0 [] [] oneHandler twoHandler []).2
      (by decide)

/-- C4: `Table.remove id` returns the removed entry when `id` is present
and `none` otherwise; after `register id h` followed by `remove id`,
`do_call id` returns `none`; and `do_call` on an id that is not in the
registry also returns `none`. -/
theorem remove_and_absent_semantics :
    (∀ (t : Table) (id : Nat), (t.remove id).1 = mapGet id t.map) ∧
    (∀ (t : Table) (id : Nat) (shape : List ArgTy)
      (f : List ArgVal → RetVal) (args : List Nat), t.Wf →
        (((t.register id shape f).remove id).2).do_call id args = none) ∧
    (∀ (t : Table) (id : Nat) (args : List Nat),
      id ∉ t.map.map Prod.fst → t.do_call id args = none) := by
  refine ⟨?_, ?_, ?_⟩
  · intro t id
    exact mapRemove_fst id t.map
  · intro t id shape f args hwf
    have h1 : ((mapInsert id (Service.from_handler shape f) t.map).map
        Prod.fst).Nodup := nodup_mapInsert _ _ _ hwf
    have h2 := not_mem_keys_mapRemove id _ h1
    simp only [Table.do_call, Table.remove, Table.register]
    rw [(mapGet_eq_none_iff id _).mpr h2]
    rfl
  · intro t id args h
    simp only [Table.do_call]
    rw [(mapGet_eq_none_iff id _).mpr h]
    rfl

theorem remove_and_absent_semantics_witness :
    (Table.new.remove 3).1 = mapGet 3 Table.new.map ∧
    (((Table.new.register 1 [] oneHandler).remove 1).2).do_call 1 [] = none ∧
    Table.new.do_call 9 [] = none := by
  refine ⟨?_, ?_, ?_⟩
  · exact remove_and_absent_semantics.1 Table.new 3
  · exact remove_and_absent_semantics.2.1 Table.new 1 [] oneHandler []
      (by decide)
  · exact remove_and_absent_semantics.2.2 Table.new 9 [] (by decide)

/-- C5: A tuple of N typed positions decodes each position k
independently from the sub-slice starting at word index k, not at an
accumulated offset: for every tuple arity 1 through 6 and every word
slice at least as long as the tuple, the decoded value at position k is
exactly the single-value decode applied to `words.drop k`. -/
theorem tuple_positions_decode_at_fixed_index (shape : List ArgTy)
    (args : List Nat) (k : Nat) (h1 : 1 ≤ shape.length)
    (h6 : shape.length ≤ 6) (hlen : shape.length ≤ args.length)
    (hk : k < shape.length) :
    fromArgsTuple shape args = .ok (decodeWords shape args) ∧
    (decodeWords shape args).length = shape.length ∧
    (shape.getD k ArgTy.ptr).fromArgs (args.drop k)
      = .ok ((decodeWords shape args).getD k (ArgVal.addr 0)) := by
  refine ⟨fromArgsTuple_ok shape args hlen, decodeWords_length shape args, ?_⟩
  rw [decodeWords_getD shape args k hk]
  obtain ⟨x, xs, hx⟩ : ∃ x xs, args.drop k = x :: xs := by
    cases hcase : args.drop k with
    | nil =>
      rw [List.drop_eq_nil_iff] at hcase
      omega
    | cons x xs => exact ⟨x, xs, rfl⟩
  rw [hx]
  exact fromArgs_cons _ x xs

theorem tuple_positions_decode_at_fixed_index_witness :
    fromArgsTuple [ArgTy.scalar ScalarTy.u8, ArgTy.ptr] [300, 7]
      = .ok [ArgVal.int 44, ArgVal.addr 7] ∧
    (([ArgTy.scalar ScalarTy.u8, ArgTy.ptr].getD 1 ArgTy.ptr).fromArgs
        (([300, 7] : List Nat).drop 1))
      = .ok (([ArgVal.int 44, ArgVal.addr 7] : List ArgVal).getD 1
          (ArgVal.addr 0)) := by
  have h := tuple_positions_decode_at_fixed_index
    [ArgTy.scalar ScalarTy.u8, ArgTy.ptr] [300, 7] 1
    (by decide) (by decide) (by decide) (by decide)
  have hd : decodeWords [ArgTy.scalar ScalarTy.u8, ArgTy.ptr] [300, 7]
      = [ArgVal.int 44, ArgVal.addr 7] := by decide
  constructor
  · rw [h.1, hd]
  · rw [h.2.2, hd]

/-- C6: The unit (no-argument) shape decodes successfully from every
word slice, including the empty one, producing nothing; a scalar numeric
type decodes successfully iff the slice is non-empty, and on success
yields word index 0 cast (truncated/widened) to that type's width. -/
theorem unit_and_scalar_decode (t : ScalarTy) :
    (∀ args : List Nat, fromArgsUnit args = .ok ()) ∧
    (∀ args : List Nat, (∃ v, fromArgsScalar t args = .ok v) ↔ args ≠ []) ∧
    (∀ (x : Nat) (rest : List Nat),
      fromArgsScalar t (x :: rest) = .ok (castWord t x)) := by
  have hcons : ∀ (x : Nat) (rest : List Nat),
      fromArgsScalar t (x :: rest) = .ok (castWord t x) := by
    intro x rest
    have h : 1 ≤ (x :: rest).length := by simp
    simp only [fromArgsScalar, dif_pos h]
    rfl
  refine ⟨fun args => rfl, ?_, hcons⟩
  intro args
  constructor
  · rintro ⟨v, hv⟩ he
    subst he
    simp [fromArgsScalar] at hv
  · intro h
    cases args with
    | nil => exact absurd rfl h
    | cons x rest => exact ⟨castWord t x, hcons x rest⟩

theorem unit_and_scalar_decode_witness :
    fromArgsUnit [] = .ok () ∧
    fromArgsScalar ScalarTy.u8 [300] = .ok 44 ∧
    fromArgsScalar ScalarTy.u8 [] = .error "u8:args.len() < 1" := by
  refine ⟨(unit_and_scalar_decode ScalarTy.u8).1 [], ?_, by decide⟩
  have h := (unit_and_scalar_decode ScalarTy.u8).2.2 300 []
  rw [h]
  decide

/-- C7: Round-trip: for every scalar value v of a scalar type, encoding
it with `ToIsize` and decoding the resulting word (placed at word index
0) back to the same scalar type with `FromArgs`'s cast yields v exactly
— in particular the value is preserved for `usize` and `isize`. -/
theorem scalar_roundtrip (t : ScalarTy) (v : Int) (hv : scalarInRange t v) :
    castWord t (isizeToWord (toIsizeScalar t v)) = v := by
  obtain ⟨hlo, hhi⟩ := hv
  cases t <;>
    simp [ScalarTy.lo, ScalarTy.hi, ScalarTy.width, ScalarTy.signed,
      castWord, toSigned, toIsizeScalar, isizeToWord] at hlo hhi ⊢ <;>
    omega

theorem scalar_roundtrip_witness :
    castWord ScalarTy.i8 (isizeToWord (toIsizeScalar ScalarTy.i8 (-5))) = -5 ∧
    castWord ScalarTy.usize (isizeToWord (toIsizeScalar ScalarTy.usize
        18446744073709551615)) = 18446744073709551615 ∧
    castWord ScalarTy.isize (isizeToWord (toIsizeScalar ScalarTy.isize
        (-9223372036854775808))) = -9223372036854775808 := by
  refine ⟨?_, ?_, ?_⟩
  · exact scalar_roundtrip ScalarTy.i8 (-5) (by decide)
  · exact scalar_roundtrip ScalarTy.usize 18446744073709551615 (by decide)
  · exact scalar_roundtrip ScalarTy.isize (-9223372036854775808) (by decide)

/-- C8: A `Result` return value encodes by applying the contained
outcome's own encode rule with no added discriminant, and the unit
result encodes to 0: `Err(-2i32)` encodes to -2, `Ok(1usize)` encodes to
1, and `()` encodes to 0. -/
theorem result_encoding :
    (∀ v : RetVal, (RetVal.ok v).to_isize = v.to_isize ∧
      (RetVal.err v).to_isize = v.to_isize) ∧
    (RetVal.err (RetVal.scalar ScalarTy.i32 (-2))).to_isize = -2 ∧
    (RetVal.ok (RetVal.scalar ScalarTy.usize 1)).to_isize = 1 ∧
    RetVal.unit.to_isize = 0 := by
  exact ⟨fun v => ⟨rfl, rfl⟩, by decide, by decide, rfl⟩

theorem result_encoding_witness :
    (RetVal.ok RetVal.unit).to_isize = RetVal.unit.to_isize ∧
    (RetVal.err RetVal.unit).to_isize = RetVal.unit.to_isize :=
  result_encoding.1 RetVal.unit

/-- C9: The claim says every decodable target type reports underflow
with an error value identifying the type or position that lacked a word.
The scalar impls do: `stringify!($ident)` inside the `mark_basic_type!`
macro expands to the concrete type name.  But in the `*const T` and
`*mut T` impls the same `stringify!($ident)` call sits outside any macro
definition, so it stringifies the literal tokens `$ident` and the error
is the fixed placeholder text `"$ident:args.len() < 1"`, identifying no
type — the code contradicts the evident intent at the pointer types. -/
theorem underflow_error_strings :
    fromArgsPtr ([] : List Nat) = .error "$ident:args.len() < 1" ∧
    fromArgsScalar ScalarTy.usize [] = .error "usize:args.len() < 1" ∧
    fromArgsScalar ScalarTy.i32 [] = .error "i32:args.len() < 1" := by
  exact ⟨by decide, by decide, by decide⟩

/-- C10: Decentralized-registry lookup truncates the supplied number to
16 bits (`as u16`) before comparing against entry ids, so two numbers
congruent mod 2^16 resolve identically; the scan returns the first
matching entry; and when no entry matches it panics (modelled as
`none`). -/
theorem invoke_call_id_semantics :
    (∀ (reg : List ServiceWrapper) (n1 n2 : Nat) (p : List Nat),
      n1 % 2 ^ 16 = n2 % 2 ^ 16 →
        invoke_call_id reg n1 p = invoke_call_id reg n2 p) ∧
    (∀ (pre : List ServiceWrapper) (w : ServiceWrapper)
      (post : List ServiceWrapper) (n : Nat) (p : List Nat),
      (∀ w2 ∈ pre, w2.id ≠ n % 2 ^ 16) → w.id = n % 2 ^ 16 →
        invoke_call_id (pre ++ w :: post) n p = some (w.service p)) ∧
    (∀ (reg : List ServiceWrapper) (n : Nat) (p : List Nat),
      (∀ w ∈ reg, w.id ≠ n % 2 ^ 16) → invoke_call_id reg n p = none) := by
  refine ⟨?_, ?_, ?_⟩
  · intro reg n1 n2 p h
    simp only [invoke_call_id, h]
  · intro pre w post n p
    induction pre with
    | nil =>
      intro _ hw
      simp only [invoke_call_id, List.nil_append, search_run]
      rw [if_pos hw.symm]
    | cons a rest ih =>
      intro hpre hw
      have ha : a.id ≠ n % 2 ^ 16 := hpre a (by simp)
      have hrest : ∀ w2 ∈ rest, w2.id ≠ n % 2 ^ 16 :=
        fun w2 hm => hpre w2 (by simp [hm])
      have hr := ih hrest hw
      simp only [invoke_call_id, List.cons_append, search_run] at hr ⊢
      rw [if_neg (fun hh => ha hh.symm)]
      exact hr
  · intro reg n p
    induction reg with
    | nil => intro _; rfl
    | cons a rest ih =>
      intro h
      have ha : a.id ≠ n % 2 ^ 16 := h a (by simp)
      have hrest : ∀ w2 ∈ rest, w2.id ≠ n % 2 ^ 16 :=
        fun w2 hm => h w2 (by simp [hm])
      have hr := ih hrest
      simp only [invoke_call_id, search_run] at hr ⊢
      rw [if_neg (fun hh => ha hh.symm)]
      exact hr

theorem invoke_call_id_semantics_witness :
    invoke_call_id [wrapperOne, wrapperTwo] 65541 []
      = invoke_call_id [wrapperOne, wrapperTwo] 5 [] ∧
    invoke_call_id ([] ++ wrapperOne :: [wrapperTwo]) 5 []
      = some (wrapperOne.service []) ∧
    invoke_call_id [wrapperOne, wrapperTwo] 6 [] = none := by
  refine ⟨?_, ?_, ?_⟩
  · exact invoke_call_id_semantics.1 [wrapperOne, wrapperTwo] 65541 5 []
      (by decide)
  · refine invoke_call_id_semantics.2.1 [] wrapperOne [wrapperTwo] 5 [] ?_
      (by decide)
    intro w2 h
    exact absurd h (List.not_mem_nil w2)
  · refine invoke_call_id_semantics.2.2 [wrapperOne, wrapperTwo] 6 [] ?_
    intro w h
    rcases List.mem_cons.mp h with h1 | h2
    · subst h1; decide
    · rcases List.mem_cons.mp h2 with h3 | h4
      · subst h3; decide
      · exact absurd h4 (List.not_mem_nil w)

end SyscallTable
